import Mathlib

/-!
Verification of the content-addressed storage core of `secure-file-sharing`.

This file is a shallow embedding, in Lean 4, of the Rust modules
`src/crypto/hash.rs`, `src/core/merkle_tree.rs`, `src/filter/bloom.rs`,
`src/crypto/commitment.rs` and `src/storage/engine.rs`, together with
theorems settling the specification claims about them.

Modelling conventions:
* Byte sequences are `List Nat` (each entry standing for one `u8`).
* The cryptographic digests (SHA-256 / SHA-512 / SHA3-256 / SHA3-512 from
  the `sha2`/`sha3` crates) are modelled by `modelDigest`, an executable
  injective function tagged by the algorithm.  The repository's own spec
  treats digest collisions as out of scope ("accepted cryptographic
  assumption"), so the ideal collision-free model is faithful to every
  structural property of the code; no theorem below depends on any other
  property of the digest function.
* Recursion that the Rust code performs with loops is expressed with a
  structural fuel argument (`List.length` of the input) so that every
  definition reduces inside the kernel; fuel is always sufficient, which
  the lemmas below establish.
-/

/-- The `HashAlgo` enum of `src/crypto/hash.rs` (four variants). -/
inductive HashAlgo where
  | Sha256
  | Sha512
  | Sha3_256
  | Sha3_512
deriving DecidableEq, Repr

/-- Numeric tag distinguishing the four algorithms in the digest model. -/
def HashAlgo.code : HashAlgo → Nat
  | .Sha256 => 0
  | .Sha512 => 1
  | .Sha3_256 => 2
  | .Sha3_512 => 3

/-- Ideal (collision-free) model of the digest primitives invoked by
`HashValue::compute`: injective in the pair (algorithm, data), executable,
and always at least 8 bytes long, like every real digest the code uses. -/
def modelDigest (algo : HashAlgo) (data : List Nat) : List Nat :=
  algo.code :: data.length :: (data ++ List.replicate 8 0)

/-- The `HashValue` struct of `src/crypto/hash.rs`: an algorithm tag plus
digest bytes; derived equality compares both fields, exactly as the Rust
`#[derive(PartialEq, Eq)]` does. -/
structure HashValue where
  algo : HashAlgo
  bytes : List Nat
deriving DecidableEq, Repr

/-- `HashValue::compute(data, algo)` of `src/crypto/hash.rs`. -/
def HashValue.compute (data : List Nat) (algo : HashAlgo) : HashValue :=
  { algo := algo, bytes := modelDigest algo data }

theorem HashAlgo.code_injective : ∀ a b : HashAlgo, a.code = b.code → a = b := by
  intro a b h
  cases a <;> cases b <;> simp [HashAlgo.code] at h ⊢

theorem modelDigest_injective {a a' : HashAlgo} {d d' : List Nat}
    (h : modelDigest a d = modelDigest a' d') : a = a' ∧ d = d' := by
  unfold modelDigest at h
  obtain ⟨hc, hl, happ⟩ : a.code = a'.code ∧ d.length = d'.length ∧
      d ++ List.replicate 8 0 = d' ++ List.replicate 8 0 := by
    simpa using h
  exact ⟨HashAlgo.code_injective _ _ hc, (List.append_inj_left happ hl)⟩

theorem HashValue.compute_injective {d d' : List Nat} {a a' : HashAlgo}
    (h : HashValue.compute d a = HashValue.compute d' a') : d = d' ∧ a = a' := by
  unfold HashValue.compute at h
  have hb : modelDigest a d = modelDigest a' d' := congrArg HashValue.bytes h
  obtain ⟨ha, hd⟩ := modelDigest_injective hb
  exact ⟨hd, ha⟩

/-! ## Merkle tree (`src/core/merkle_tree.rs`) -/

/-- The `MerkleTree` struct: root, leaves, and all levels from the leaf
level up to (and including) the single-element root level. -/
structure MerkleTree where
  root : HashValue
  leaves : List HashValue
  levels : List (List HashValue)
deriving DecidableEq, Repr

/-- The `MerkleProof` struct: leaf hash, sibling list (hash together with
the `is_right` flag), and the claimed root. -/
structure MerkleProof where
  leaf_hash : HashValue
  siblings : List (HashValue × Bool)
  root_hash : HashValue
deriving DecidableEq, Repr

/-- One pass of the `while current.len() > 1` loop body in
`MerkleTree::new`: pair adjacent elements (`chunks(2)`), hashing
`concat(left, right)`; an odd trailing element is paired with itself. -/
def pairUp : List HashValue → List HashValue
  | [] => []
  | [a] => [HashValue.compute (a.bytes ++ a.bytes) .Sha256]
  | a :: b :: rest => HashValue.compute (a.bytes ++ b.bytes) .Sha256 :: pairUp rest

/-- Iterating the pairing loop down to the root; the fuel (first argument)
is an upper bound on the number of iterations, amply satisfied by the
length of the level. -/
def rootFromFuel : Nat → List HashValue → HashValue
  | _, [] => HashValue.compute [] .Sha256
  | _, [a] => a
  | 0, a :: _ :: _ => a
  | fuel + 1, a :: b :: rest => rootFromFuel fuel (pairUp (a :: b :: rest))

/-- The levels strictly above the leaf level produced by the construction
loop of `MerkleTree::new` (each `levels.push(next)`), fueled as above. -/
def levelsFromFuel : Nat → List HashValue → List (List HashValue)
  | _, [] => []
  | _, [_] => []
  | 0, _ :: _ :: _ => []
  | fuel + 1, a :: b :: rest =>
      pairUp (a :: b :: rest) :: levelsFromFuel fuel (pairUp (a :: b :: rest))

/-- `MerkleTree::new(leaves)`: empty input yields the canonical
hash-of-empty root with no levels; otherwise level 0 is the leaf sequence
and each further level pairs the previous one until a singleton remains. -/
def MerkleTree.new (leaves : List HashValue) : MerkleTree :=
  if leaves.isEmpty then
    { root := HashValue.compute [] .Sha256, leaves := [], levels := [] }
  else
    { root := rootFromFuel leaves.length leaves
      leaves := leaves
      levels := leaves :: levelsFromFuel leaves.length leaves }

/-- The `for level in 0..self.levels.len()-1` loop of
`MerkleTree::generate_proof`: the second argument counts the levels still
to visit (`levels.len() - 1` at the top call), the third is the running
index `idx`.  A sibling entry is pushed only when the sibling index exists
in the current level. -/
def siblingsFrom : List (List HashValue) → Nat → Nat → List (HashValue × Bool)
  | _, 0, _ => []
  | [], _ + 1, _ => []
  | lvl :: rest, count + 1, idx =>
      (let sibling_idx := if idx % 2 = 0 then idx + 1 else idx - 1
       if h : sibling_idx < lvl.length then
         [(lvl.get ⟨sibling_idx, h⟩, decide (idx % 2 = 0))]
       else []) ++ siblingsFrom rest count (idx / 2)

/-- `MerkleTree::generate_proof(leaf_idx)`: `None` when the index is out
of range, otherwise the sibling walk from the leaf level upward. -/
def MerkleTree.generate_proof (t : MerkleTree) (leaf_idx : Nat) : Option MerkleProof :=
  if h : t.leaves.length ≤ leaf_idx then none
  else
    some { leaf_hash := t.leaves.get ⟨leaf_idx, by omega⟩
           siblings := siblingsFrom t.levels (t.levels.length - 1) leaf_idx
           root_hash := t.root }

/-- `MerkleTree::verify_proof(proof)`: fold the siblings over the leaf
hash, respecting the `is_right` orientation, and compare with the claimed
root (comparison is derived equality on algorithm and bytes). -/
def MerkleTree.verify_proof (proof : MerkleProof) : Bool :=
  decide ((proof.siblings.foldl
    (fun current sib =>
      HashValue.compute
        (if sib.2 then current.bytes ++ sib.1.bytes else sib.1.bytes ++ current.bytes)
        .Sha256)
    proof.leaf_hash) = proof.root_hash)

/-! ## Bloom filter (`src/filter/bloom.rs`) -/

/-- The `BloomFilter` struct: bit array, the chosen hash algorithms, the
bit-array size `m`, and the item counter. -/
structure BloomFilter where
  bits : List Bool
  hashers : List HashAlgo
  size : Nat
  num_items : Nat
deriving DecidableEq, Repr

/-- The hard-coded candidate list inside `BloomFilter::new` from which the
`k` hash algorithms are taken: only three of the four `HashAlgo` variants
appear (`Sha3_512` is absent). -/
def bloomCandidates : List HashAlgo := [.Sha256, .Sha512, .Sha3_256]

/-- `BloomFilter::new(expected_items, fp_rate)` after its numeric sizing
step.  The two floating-point formulas `m = ceil(-n·ln p / ln²2)` and
`k = ceil((m/n)·ln 2)` are abstracted into the parameters `m` and `k`
(floating point is outside the embedding); the body below is the rest of
the constructor verbatim: a zeroed bit array of length `m` and
`candidates.take k` as the hasher family. -/
def BloomFilter.new (m k : Nat) : BloomFilter :=
  { bits := List.replicate m false
    hashers := bloomCandidates.take k
    size := m
    num_items := 0 }

/-- `BloomFilter::hash_to_index`: fold the first 8 digest bytes
big-endian into a `u64` (`val = (val << 8) | b`, wrapping semantics made
explicit with `% 2^64`) and reduce modulo the bit-array size. -/
def BloomFilter.hash_to_index (bf : BloomFilter) (hash : HashValue) : Nat :=
  ((hash.bytes.take 8).foldl (fun val b => ((val <<< 8) ||| b) % 2 ^ 64) 0) % bf.size

/-- `BloomFilter::add(item)`: set the bit indexed by each hasher's digest
of the item, then increment `num_items`.  `size` and `hashers` are not
touched by the loop, so the fold carries only the bit array. -/
def BloomFilter.add (bf : BloomFilter) (item : List Nat) : BloomFilter :=
  { bf with
    bits := bf.hashers.foldl
      (fun bits algo => bits.set (bf.hash_to_index (HashValue.compute item algo)) true)
      bf.bits
    num_items := bf.num_items + 1 }

/-- `BloomFilter::contains(item)`: `false` as soon as one required bit is
unset, else `true`. -/
def BloomFilter.contains (bf : BloomFilter) (item : List Nat) : Bool :=
  bf.hashers.all fun algo =>
    bf.bits.getD (bf.hash_to_index (HashValue.compute item algo)) false

/-- A sequence of `add` calls, left to right. -/
def BloomFilter.addAll (bf : BloomFilter) (items : List (List Nat)) : BloomFilter :=
  items.foldl BloomFilter.add bf

/-! ## Commitment (`src/crypto/commitment.rs`) -/

/-- The `Commitment` struct: digest plus the nonce it was drawn with. -/
structure Commitment where
  hash : HashValue
  nonce : List Nat
deriving DecidableEq, Repr

/-- `Commitment::commit(secret)`: the randomly drawn 32-byte nonce is
passed as a parameter (randomness is outside the embedding); the digest is
SHA3-256 of `secret ++ nonce`, exactly as in the source. -/
def Commitment.commit (secret nonce : List Nat) : Commitment :=
  { hash := HashValue.compute (secret ++ nonce) .Sha3_256
    nonce := nonce }

/-- `Commitment::verify(secret)`: recompute SHA3-256 of
`secret ++ stored nonce` and compare with the stored digest; a pure
function of the commitment and the candidate secret. -/
def Commitment.verify (c : Commitment) (secret : List Nat) : Bool :=
  decide (HashValue.compute (secret ++ c.nonce) .Sha3_256 = c.hash)

/-! ## Storage engine (`src/storage/engine.rs`)

The engine's maps are keyed in the source by the hex string of a digest;
hex encoding is injective on byte sequences, so the model keys directly by
the digest bytes.  The filesystem (chunk blobs named `{hex}_{i}.chunk` and
metadata sidecars `{hex}.meta`) is modelled as association lists inside
the state; insertion is `cons`, lookup returns the most recent binding,
matching file overwrite semantics.  The `created_at`/`modified_at`
timestamps (wall-clock reads) are outside the embedding and carried by no
claim. -/

/-- The `FileMetadata` struct of `src/core/file_metadata.rs`, minus the
two wall-clock timestamps. -/
structure FileMetadata where
  path : String
  size : Nat
  hash : HashValue
  chunks : List HashValue
  merkle_root : HashValue
  owner : String
deriving DecidableEq, Repr

/-- Lookup in an association list keyed by digest bytes (the model of a
`HashMap<String, _>` keyed by hex strings). -/
def alookup {α : Type} (k : List Nat) : List (List Nat × α) → Option α
  | [] => none
  | (k', v) :: rest => if k' = k then some v else alookup k rest

/-- Lookup of a chunk blob keyed by `(file hash bytes, chunk index)`. -/
def clookup (k : List Nat × Nat) : List ((List Nat × Nat) × List Nat) → Option (List Nat)
  | [] => none
  | (k', v) :: rest => if k' = k then some v else clookup k rest

/-- The `StorageEngine` state: the on-disk chunk blobs, the on-disk
metadata sidecar files, both in-memory indices, and the four dedup
counters of `DedupStats`. -/
structure StorageEngine where
  chunkFiles : List ((List Nat × Nat) × List Nat)
  metaFiles : List (List Nat × FileMetadata)
  hash_to_path : List (List Nat)
  hash_to_metadata : List (List Nat × FileMetadata)
  total_files : Nat
  unique_files : Nat
  total_bytes : Nat
  saved_bytes : Nat
deriving DecidableEq, Repr

/-- A `StorageEngine::new` result: empty stores, empty indices, zeroed
counters. -/
def StorageEngine.empty : StorageEngine :=
  { chunkFiles := [], metaFiles := [], hash_to_path := [], hash_to_metadata := []
    total_files := 0, unique_files := 0, total_bytes := 0, saved_bytes := 0 }

/-- The chunk size used by `store_file`: `data.chunks(1024 * 1024)`. -/
def CHUNK_SIZE : Nat := 1024 * 1024

/-- `slice::chunks(CHUNK_SIZE)` with a structural fuel argument (one unit
of fuel per element is more than one unit per chunk). -/
def chunkListFuel : Nat → List Nat → List (List Nat)
  | _, [] => []
  | 0, l => [l]
  | fuel + 1, a :: rest =>
      ((a :: rest).take CHUNK_SIZE) :: chunkListFuel fuel ((a :: rest).drop CHUNK_SIZE)

/-- `data.chunks(1024 * 1024)` as a list of sub-lists, in order. -/
def chunkList (data : List Nat) : List (List Nat) :=
  chunkListFuel data.length data

/-- `StorageEngine::store_file(data, filename, owner)`: dedup
short-circuit when the whole-file hash is already a key, otherwise write
the chunks, build the Merkle tree, persist and index the metadata, and
update the counters. -/
def StorageEngine.store_file (s : StorageEngine) (data : List Nat)
    (filename owner : String) : FileMetadata × StorageEngine :=
  let hash := HashValue.compute data .Sha256
  let hex := hash.bytes
  match alookup hex s.hash_to_metadata with
  | some existing =>
      (existing,
       { s with
         total_files := s.total_files + 1
         total_bytes := s.total_bytes + data.length
         saved_bytes := s.saved_bytes + data.length })
  | none =>
      let chunkDatas := chunkList data
      let chunks := chunkDatas.map fun c => HashValue.compute c .Sha256
      let tree := MerkleTree.new chunks
      let metadata : FileMetadata :=
        { path := filename, size := data.length, hash := hash
          chunks := chunks, merkle_root := tree.root, owner := owner }
      (metadata,
       { chunkFiles := (chunkDatas.enum.map fun p => ((hex, p.1), p.2)) ++ s.chunkFiles
         metaFiles := (hex, metadata) :: s.metaFiles
         hash_to_path := hex :: s.hash_to_path
         hash_to_metadata := (hex, metadata) :: s.hash_to_metadata
         total_files := s.total_files + 1
         unique_files := s.unique_files + 1
         total_bytes := s.total_bytes + data.length
         saved_bytes := s.saved_bytes })

/-- The error taxonomy of `retrieve_file`: unknown hash ("file not
found"), unreadable chunk blob (propagated I/O failure), and the
`anyhow::bail!("chunk {} integrity check failed")` case. -/
inductive RetrieveError where
  | notFound
  | chunkReadError (i : Nat)
  | integrityFailure (i : Nat)
deriving DecidableEq, Repr

/-- The reconstruction loop of `retrieve_file`: for each `(i, chunk_hash)`
read the blob `(hex, i)`, recompute its digest, compare with the recorded
one, and bail out on the first mismatch; on success the chunks are
concatenated in order. -/
def readChunksLoop (s : StorageEngine) (hex : List Nat) :
    List (Nat × HashValue) → Except RetrieveError (List Nat)
  | [] => .ok []
  | (i, chunk_hash) :: rest =>
      match clookup (hex, i) s.chunkFiles with
      | none => .error (.chunkReadError i)
      | some chunk_data =>
          if HashValue.compute chunk_data .Sha256 = chunk_hash then
            (readChunksLoop s hex rest).map fun tail => chunk_data ++ tail
          else
            .error (.integrityFailure i)

/-- `StorageEngine::retrieve_file(hash)`: not-found when the hex key is
unknown, otherwise the verified reconstruction loop over the recorded
chunk digests in order. -/
def StorageEngine.retrieve_file (s : StorageEngine) (hash : HashValue) :
    Except RetrieveError (List Nat) :=
  let hex := hash.bytes
  match alookup hex s.hash_to_metadata with
  | none => .error .notFound
  | some metadata => readChunksLoop s hex metadata.chunks.enum

/-! ## Bloom filter lemmas -/

/-- Well-formedness of a Bloom filter state: the bit array has exactly
`size` entries and the size is positive. -/
def BloomWF (bf : BloomFilter) : Prop :=
  bf.bits.length = bf.size ∧ 1 ≤ bf.size

theorem setfold_length (g : HashAlgo → Nat) :
    ∀ (hs : List HashAlgo) (bits : List Bool),
      (hs.foldl (fun b a => b.set (g a) true) bits).length = bits.length := by
  intro hs
  induction hs with
  | nil => intro bits; rfl
  | cons h t ih => intro bits; simpa [List.foldl_cons] using ih (bits.set (g h) true)

theorem getD_set_true (b : List Bool) (i j : Nat) (h : b.getD i false = true) :
    (b.set j true).getD i false = true := by
  rcases eq_or_ne i j with rfl | hne
  · by_cases hij : i < b.length
    · simp [List.getD_eq_getElem?_getD, List.getElem?_set_eq_of_lt, hij]
    · have hfalse : b.getD i false = false := by
        rw [List.getD_eq_getElem?_getD, List.getElem?_eq_none (by omega : b.length ≤ i)]
        rfl
      rw [hfalse] at h
      cases h
  · simpa [List.getD_eq_getElem?_getD, List.getElem?_set_ne (Ne.symm hne)] using h

theorem setfold_mono (g : HashAlgo → Nat) :
    ∀ (hs : List HashAlgo) (bits : List Bool) (i : Nat),
      bits.getD i false = true →
      (hs.foldl (fun b a => b.set (g a) true) bits).getD i false = true := by
  intro hs
  induction hs with
  | nil => intro bits i h; simpa using h
  | cons hh t ih =>
      intro bits i h
      simpa [List.foldl_cons] using ih (bits.set (g hh) true) i (getD_set_true bits i (g hh) h)

theorem setfold_sets (g : HashAlgo → Nat) :
    ∀ (hs : List HashAlgo) (bits : List Bool) (a : HashAlgo),
      a ∈ hs → g a < bits.length →
      (hs.foldl (fun b a => b.set (g a) true) bits).getD (g a) false = true := by
  intro hs
  induction hs with
  | nil => intro bits a ha; cases ha
  | cons hh t ih =>
      intro bits a ha hlt
      rcases List.mem_cons.mp ha with rfl | hmem
      · have hset : (bits.set (g a) true).getD (g a) false = true := by
          simp [List.getD_eq_getElem?_getD, List.getElem?_set_self, hlt]
        simpa [List.foldl_cons] using setfold_mono g t (bits.set (g a) true) (g a) hset
      · have : g a < (bits.set (g hh) true).length := by simpa using hlt
        simpa [List.foldl_cons] using ih (bits.set (g hh) true) a hmem this

theorem add_size (bf : BloomFilter) (x : List Nat) : (bf.add x).size = bf.size := rfl

theorem add_hashers (bf : BloomFilter) (x : List Nat) : (bf.add x).hashers = bf.hashers := rfl

theorem add_bits_length (bf : BloomFilter) (x : List Nat) :
    (bf.add x).bits.length = bf.bits.length :=
  setfold_length _ bf.hashers bf.bits

theorem add_wf (bf : BloomFilter) (x : List Nat) (h : BloomWF bf) : BloomWF (bf.add x) := by
  obtain ⟨h1, h2⟩ := h
  exact ⟨by rw [add_bits_length, add_size, h1], by rw [add_size]; exact h2⟩

theorem add_bits_mono (bf : BloomFilter) (x : List Nat) (i : Nat)
    (h : bf.bits.getD i false = true) : (bf.add x).bits.getD i false = true :=
  setfold_mono _ bf.hashers bf.bits i h

theorem hash_to_index_lt (bf : BloomFilter) (hv : HashValue) (h : 1 ≤ bf.size) :
    bf.hash_to_index hv < bf.size :=
  Nat.mod_lt _ (by omega)

theorem contains_add_self (bf : BloomFilter) (x : List Nat) (h : BloomWF bf) :
    (bf.add x).contains x = true := by
  obtain ⟨h1, h2⟩ := h
  rw [BloomFilter.contains, List.all_eq_true]
  intro algo hmem
  rw [add_hashers] at hmem
  have hidx : (bf.add x).hash_to_index (HashValue.compute x algo) < bf.bits.length := by
    rw [h1]
    exact hash_to_index_lt _ _ (by simpa [add_size] using h2)
  have : (bf.add x).hash_to_index (HashValue.compute x algo)
      = bf.hash_to_index (HashValue.compute x algo) := rfl
  show (bf.add x).bits.getD _ false = true
  simp only [BloomFilter.add] at *
  exact setfold_sets _ bf.hashers bf.bits algo hmem (by simpa [this] using hidx)

theorem contains_mono (bf : BloomFilter) (x y : List Nat)
    (h : bf.contains x = true) : (bf.add y).contains x = true := by
  rw [BloomFilter.contains, List.all_eq_true] at h ⊢
  intro algo hmem
  rw [add_hashers] at hmem
  have hx := h algo hmem
  exact add_bits_mono bf y _ hx

theorem addAll_mono (rest : List (List Nat)) :
    ∀ (b : BloomFilter) (x : List Nat), b.contains x = true →
      (b.addAll rest).contains x = true := by
  induction rest with
  | nil => intro b x hb; simpa [BloomFilter.addAll] using hb
  | cons z zs ihz =>
      intro b x hb
      simpa [BloomFilter.addAll, List.foldl_cons] using ihz (b.add z) x (contains_mono b x z hb)

theorem addAll_contains (items : List (List Nat)) :
    ∀ (bf : BloomFilter) (x : List Nat), BloomWF bf → x ∈ items →
      (bf.addAll items).contains x = true := by
  induction items with
  | nil => intro bf x _ hx; cases hx
  | cons y rest ih =>
      intro bf x hwf hx
      rcases List.mem_cons.mp hx with rfl | hmem
      · have h1 : (bf.add x).contains x = true := contains_add_self bf x hwf
        simpa [BloomFilter.addAll, List.foldl_cons] using addAll_mono rest (bf.add x) x h1
      · simpa [BloomFilter.addAll, List.foldl_cons] using
          ih (bf.add y) x (add_wf bf y hwf) hmem

theorem new_wf (m k : Nat) (hm : 1 ≤ m) : BloomWF (BloomFilter.new m k) :=
  ⟨by simp [BloomFilter.new], hm⟩

/-! ## Claim theorems: Merkle tree, commitment, Bloom filter -/

/-- C5: during Merkle construction an odd-length level pairs its last
element with itself: for every 3-leaf sequence the root is the hash of
the concatenation of hash(l1++l2) and hash(l3++l3), and a single-leaf
tree's root is that leaf unchanged. -/
theorem merkle_odd_duplication_root (l1 l2 l3 l : HashValue) :
    (MerkleTree.new [l1, l2, l3]).root =
      HashValue.compute
        ((HashValue.compute (l1.bytes ++ l2.bytes) .Sha256).bytes ++
         (HashValue.compute (l3.bytes ++ l3.bytes) .Sha256).bytes) .Sha256 ∧
    (MerkleTree.new [l]).root = l :=
  ⟨rfl, rfl⟩

/-- C9: on the tree built from the empty leaf sequence, `generate_proof`
returns `none` for every index; the out-of-range check on the leaf count
fires before the walk over `levels.len() - 1`, so the subtraction on the
empty level list is never reached. -/
theorem generate_proof_empty_tree_total :
    ∀ i : Nat, (MerkleTree.new []).generate_proof i = none := by
  intro i
  simp [MerkleTree.new, MerkleTree.generate_proof]

/-- C10: `verify_proof` on a proof with an empty sibling list returns
`true` exactly when the leaf hash equals the claimed root; in particular
the artifact `{leaf_hash := h, siblings := [], root_hash := h}` verifies
for any hash `h`, with no reference to any tree. -/
theorem verify_proof_empty_siblings (leaf root : HashValue) :
    (MerkleTree.verify_proof
        { leaf_hash := leaf, siblings := [], root_hash := root } = true ↔ leaf = root) ∧
    MerkleTree.verify_proof
        { leaf_hash := leaf, siblings := [], root_hash := leaf } = true := by
  constructor
  · simp [MerkleTree.verify_proof]
  · simp [MerkleTree.verify_proof]

/-- C2: evaluation of the code at the failing input.  For the 3-leaf tree
over the digests of `[1]`, `[2]`, `[3]`, the index 2 is in range and
`generate_proof 2` succeeds, yet the generated proof does not verify:
the generator emits no sibling entry for the self-paired leaf level, and
`verify_proof` skips such levels instead of hashing the node with itself,
so the recomputed root misses one hashing step.  (Indices 0 and 1 of the
same tree do verify, and out-of-range indices yield `none`.) -/
theorem merkle_proof_selfpair_fails :
    ((MerkleTree.new [HashValue.compute [1] .Sha256, HashValue.compute [2] .Sha256,
        HashValue.compute [3] .Sha256]).generate_proof 2).map MerkleTree.verify_proof
      = some false ∧
    ((MerkleTree.new [HashValue.compute [1] .Sha256, HashValue.compute [2] .Sha256,
        HashValue.compute [3] .Sha256]).generate_proof 0).map MerkleTree.verify_proof
      = some true ∧
    ((MerkleTree.new [HashValue.compute [1] .Sha256, HashValue.compute [2] .Sha256,
        HashValue.compute [3] .Sha256]).generate_proof 3) = none := by
  refine ⟨by decide, by decide, by decide⟩

/-- C8: a commitment verifies its own secret: for every secret and every
drawn nonce, `verify` recomputes the SHA3-256 digest of
`secret ++ nonce` and finds the stored one; `verify` is a pure function
of the commitment and the candidate secret (it returns only a Boolean and
the commitment record is never modified). -/
theorem commitment_verify_after_commit (secret nonce : List Nat) :
    (Commitment.commit secret nonce).verify secret = true := by
  simp [Commitment.commit, Commitment.verify]

/-- C6 counterexample: at the concrete construction `new(100, 0.01)` the
sizing formulas give `m = 959` and `k = 7`; the claim says `k` is then
clamped to the HashAlgo variant count 4, but the constructor's candidate
list holds only three algorithms, so exactly 3 hashers are selected. -/
theorem bloom_clamp_counterexample :
    (BloomFilter.new 959 7).hashers.length = 3 ∧
    ¬ (BloomFilter.new 959 7).hashers.length = 4 := by
  refine ⟨by decide, by decide⟩

/-- C6 (amended): when the computed hash-function count `k` is at least
four, it is clamped to the three algorithms of the constructor's
candidate list (Sha256, Sha512, Sha3-256) — not to the four-variant
`HashAlgo` set; `Sha3_512` is never selected, no algorithm is reused, and
construction is total. -/
theorem bloom_clamp_to_candidates (m k : Nat) (hk : 4 ≤ k) :
    (BloomFilter.new m k).hashers = bloomCandidates ∧
    (BloomFilter.new m k).hashers.length = 3 ∧
    (BloomFilter.new m k).hashers.Nodup ∧
    HashAlgo.Sha3_512 ∉ (BloomFilter.new m k).hashers := by
  have hh : (BloomFilter.new m k).hashers = bloomCandidates := by
    apply List.take_of_length_le
    simp only [bloomCandidates, List.length_cons, List.length_nil]
    omega
  refine ⟨hh, ?_, ?_, ?_⟩ <;> rw [hh] <;> decide

/-- Witness for C6: the amended clamping behaviour at the concrete sizing
`m = 959`, `k = 7`. -/
theorem bloom_clamp_to_candidates_witness :
    (BloomFilter.new 959 7).hashers = bloomCandidates ∧
    (BloomFilter.new 959 7).hashers.length = 3 ∧
    (BloomFilter.new 959 7).hashers.Nodup ∧
    HashAlgo.Sha3_512 ∉ (BloomFilter.new 959 7).hashers :=
  bloom_clamp_to_candidates 959 7 (by omega)

/-- C7: for a Bloom filter constructed with a positive bit-array size,
after any sequence of `add` calls `contains` answers `true` on every item
added at any earlier point (no false negatives); and a bit once set is
never cleared — `add` only ever turns bits on (`contains` performs no
mutation at all in the source, being an `&self` method). -/
theorem bloom_no_false_negatives :
    (∀ (m k : Nat) (items : List (List Nat)) (x : List Nat),
      1 ≤ m → x ∈ items → ((BloomFilter.new m k).addAll items).contains x = true) ∧
    (∀ (bf : BloomFilter) (y : List Nat) (i : Nat),
      bf.bits.getD i false = true → (bf.add y).bits.getD i false = true) := by
  constructor
  · intro m k items x hm hx
    exact addAll_contains items (BloomFilter.new m k) x (new_wf m k hm) hx
  · intro bf y i h
    exact add_bits_mono bf y i h

/-- Witness for C7: a concrete filter of size 5 with two hashers, the two
items `[1]` and `[2,3]` added in order, and membership of `[1]` confirmed
by the theorem. -/
theorem bloom_no_false_negatives_witness :
    (1 : Nat) ≤ 5 ∧ [1] ∈ [[1], [2, 3]] ∧
    ((BloomFilter.new 5 2).addAll [[1], [2, 3]]).contains [1] = true :=
  ⟨by decide, by decide,
    bloom_no_false_negatives.1 5 2 [[1], [2, 3]] [1] (by decide) (by decide)⟩

/-! ## Storage engine lemmas -/

theorem chunkListFuel_flatten :
    ∀ (fuel : Nat) (l : List Nat), l.length ≤ fuel → (chunkListFuel fuel l).flatten = l := by
  intro fuel
  induction fuel with
  | zero =>
      intro l hl
      have hnil : l = [] := List.eq_nil_of_length_eq_zero (by omega)
      subst hnil; rfl
  | succ f ih =>
      intro l hl
      cases l with
      | nil => rfl
      | cons a rest =>
          have hcs : (1 : Nat) ≤ CHUNK_SIZE := by decide
          have hdrop : ((a :: rest).drop CHUNK_SIZE).length ≤ f := by
            rw [List.length_drop]
            simp only [List.length_cons] at hl ⊢
            omega
          calc (chunkListFuel (f + 1) (a :: rest)).flatten
              = (a :: rest).take CHUNK_SIZE ++
                  (chunkListFuel f ((a :: rest).drop CHUNK_SIZE)).flatten := rfl
            _ = (a :: rest).take CHUNK_SIZE ++ (a :: rest).drop CHUNK_SIZE := by
                  rw [ih _ hdrop]
            _ = a :: rest := List.take_append_drop _ _

theorem chunkList_flatten (data : List Nat) : (chunkList data).flatten = data :=
  chunkListFuel_flatten data.length data (Nat.le_refl _)

theorem readChunksLoop_ok (s : StorageEngine) (hex : List Nat) :
    ∀ (cds : List (List Nat)) (start : Nat),
      (∀ j, j < cds.length → clookup (hex, start + j) s.chunkFiles = some (cds.getD j [])) →
      readChunksLoop s hex
          (List.enumFrom start (cds.map fun c => HashValue.compute c .Sha256))
        = .ok cds.flatten := by
  intro cds
  induction cds with
  | nil => intro start _; rfl
  | cons c rest ih =>
      intro start h
      have h0 : clookup (hex, start) s.chunkFiles = some c := by
        simpa using h 0 (by simp)
      have hrest : ∀ j, j < rest.length →
          clookup (hex, (start + 1) + j) s.chunkFiles = some (rest.getD j []) := by
        intro j hj
        have hstep := h (j + 1) (by simp only [List.length_cons]; omega)
        rw [show start + (j + 1) = (start + 1) + j from by omega] at hstep
        simpa using hstep
      have hcons : List.enumFrom start
            ((c :: rest).map fun c => HashValue.compute c .Sha256)
          = (start, HashValue.compute c .Sha256) ::
              List.enumFrom (start + 1) (rest.map fun c => HashValue.compute c .Sha256) := rfl
      rw [hcons, readChunksLoop, h0]
      simp only [if_pos rfl, ih (start + 1) hrest]
      rfl

theorem clookup_fresh (hex : List Nat) :
    ∀ (cds : List (List Nat)) (start j : Nat) (old : List ((List Nat × Nat) × List Nat)),
      j < cds.length →
      clookup (hex, start + j)
          (((List.enumFrom start cds).map fun p => ((hex, p.1), p.2)) ++ old)
        = some (cds.getD j []) := by
  intro cds
  induction cds with
  | nil =>
      intro start j old hj
      simp at hj
  | cons c rest ih =>
      intro start j old hj
      cases j with
      | zero => simp [clookup]
      | succ j' =>
          have hne : ((hex, start) : List Nat × Nat) ≠ (hex, start + (j' + 1)) := by
            intro hcontra
            have := congrArg Prod.snd hcontra
            simp at this
          have hshift := ih (start + 1) j' old (by
            simp only [List.length_cons] at hj; omega)
          rw [show start + (j' + 1) = (start + 1) + j' from by omega]
          have hexp : ((List.enumFrom start (c :: rest)).map fun p => ((hex, p.1), p.2)) ++ old
              = ((hex, start), c) ::
                  (((List.enumFrom (start + 1) rest).map fun p => ((hex, p.1), p.2)) ++ old) := rfl
          rw [hexp, clookup]
          rw [if_neg (by
            intro hcontra
            have := congrArg Prod.snd hcontra
            simp at this
            omega)]
          exact hshift

/-- Well-formedness of an engine state: every metadata entry was produced
by storing some byte sequence `D`: its key is the digest bytes of `D`,
its recorded whole-file hash and per-chunk digests are those of `D`, and
every chunk blob of `D` is on disk under the right key. -/
def EngineWF (s : StorageEngine) : Prop :=
  ∀ hex md, alookup hex s.hash_to_metadata = some md →
    ∃ D : List Nat,
      md.hash = HashValue.compute D .Sha256 ∧
      (HashValue.compute D .Sha256).bytes = hex ∧
      md.chunks = (chunkList D).map (fun c => HashValue.compute c .Sha256) ∧
      ∀ j, j < (chunkList D).length →
        clookup (hex, j) s.chunkFiles = some ((chunkList D).getD j [])

theorem engineWF_empty : EngineWF StorageEngine.empty := by
  intro hex md h
  cases h

/-- C1: round-trip law.  From any well-formed engine state, after
`store_file(data, filename, owner)` returns metadata with hash `H`,
`retrieve_file(H)` succeeds and returns exactly `data` — the
concatenation of the stored chunks in order equals the original bytes. -/
theorem storage_roundtrip (s : StorageEngine) (data : List Nat) (filename owner : String)
    (hwf : EngineWF s) :
    (s.store_file data filename owner).2.retrieve_file
      (s.store_file data filename owner).1.hash = .ok data := by
  cases hlk : alookup (HashValue.compute data .Sha256).bytes s.hash_to_metadata with
  | some existing =>
      obtain ⟨D, hhash, hbytes, hchunks, hfiles⟩ :=
        hwf (HashValue.compute data .Sha256).bytes existing hlk
      have hD : D = data := by
        have hdig : modelDigest .Sha256 D = modelDigest .Sha256 data := by
          simpa [HashValue.compute] using hbytes
        exact (modelDigest_injective hdig).2
      rw [hD] at hhash hchunks hfiles
      simp only [StorageEngine.store_file, hlk]
      rw [StorageEngine.retrieve_file]
      simp only [hhash, hlk, hchunks]
      refine Eq.trans (readChunksLoop_ok _ _ (chunkList data) 0 ?_) ?_
      · intro j hj
        simpa using hfiles j hj
      · rw [chunkList_flatten]
  | none =>
      simp only [StorageEngine.store_file, hlk]
      rw [StorageEngine.retrieve_file]
      simp only [alookup, if_pos rfl]
      refine Eq.trans (readChunksLoop_ok _ _ (chunkList data) 0 ?_) ?_
      · intro j hj
        simpa using clookup_fresh (HashValue.compute data .Sha256).bytes (chunkList data) 0 j
          s.chunkFiles hj
      · rw [chunkList_flatten]

/-- Witness for C1: the empty engine is well-formed, and storing then
retrieving the 3-byte payload `[5, 6, 7]` returns it unchanged. -/
theorem storage_roundtrip_witness :
    EngineWF StorageEngine.empty ∧
    (StorageEngine.empty.store_file [5, 6, 7] "f" "alice").2.retrieve_file
      (StorageEngine.empty.store_file [5, 6, 7] "f" "alice").1.hash = .ok [5, 6, 7] :=
  ⟨engineWF_empty,
   storage_roundtrip StorageEngine.empty [5, 6, 7] "f" "alice" engineWF_empty⟩

/-- C3: a second `store_file` of already-stored bytes returns the
existing metadata record itself (hence identical hash and Merkle root),
writes no chunk or metadata file, leaves both in-memory indices and
`unique_files` unchanged, and bumps `total_files` by one and
`total_bytes` and `saved_bytes` each by the payload length. -/
theorem store_dedup_behavior (s : StorageEngine) (data : List Nat) (filename owner : String)
    (md0 : FileMetadata)
    (h : alookup (HashValue.compute data .Sha256).bytes s.hash_to_metadata = some md0) :
    (s.store_file data filename owner).1 = md0 ∧
    (s.store_file data filename owner).2.chunkFiles = s.chunkFiles ∧
    (s.store_file data filename owner).2.metaFiles = s.metaFiles ∧
    (s.store_file data filename owner).2.hash_to_path = s.hash_to_path ∧
    (s.store_file data filename owner).2.hash_to_metadata = s.hash_to_metadata ∧
    (s.store_file data filename owner).2.unique_files = s.unique_files ∧
    (s.store_file data filename owner).2.total_files = s.total_files + 1 ∧
    (s.store_file data filename owner).2.total_bytes = s.total_bytes + data.length ∧
    (s.store_file data filename owner).2.saved_bytes = s.saved_bytes + data.length := by
  simp [StorageEngine.store_file, h]

/-- The engine state after a first store of `[5]`, used to witness the
deduplicating second store. -/
def dedupS1 : StorageEngine := (StorageEngine.empty.store_file [5] "f" "alice").2

/-- The metadata returned by that first store. -/
def dedupMd : FileMetadata := (StorageEngine.empty.store_file [5] "f" "alice").1

/-- Witness for C3: after storing `[5]` once, a second store of `[5]`
exhibits exactly the deduplication behaviour. -/
theorem store_dedup_behavior_witness :
    alookup (HashValue.compute [5] .Sha256).bytes dedupS1.hash_to_metadata = some dedupMd ∧
    ((dedupS1.store_file [5] "g" "bob").1 = dedupMd ∧
     (dedupS1.store_file [5] "g" "bob").2.chunkFiles = dedupS1.chunkFiles ∧
     (dedupS1.store_file [5] "g" "bob").2.metaFiles = dedupS1.metaFiles ∧
     (dedupS1.store_file [5] "g" "bob").2.hash_to_path = dedupS1.hash_to_path ∧
     (dedupS1.store_file [5] "g" "bob").2.hash_to_metadata = dedupS1.hash_to_metadata ∧
     (dedupS1.store_file [5] "g" "bob").2.unique_files = dedupS1.unique_files ∧
     (dedupS1.store_file [5] "g" "bob").2.total_files = dedupS1.total_files + 1 ∧
     (dedupS1.store_file [5] "g" "bob").2.total_bytes = dedupS1.total_bytes + [5].length ∧
     (dedupS1.store_file [5] "g" "bob").2.saved_bytes = dedupS1.saved_bytes + [5].length) :=
  ⟨rfl, store_dedup_behavior dedupS1 [5] "g" "bob" dedupMd rfl⟩

theorem readChunksLoop_err (s : StorageEngine) (hex : List Nat) :
    ∀ (chs : List HashValue) (start j : Nat), j < chs.length →
      (∀ i, i < j → ∃ cd, clookup (hex, start + i) s.chunkFiles = some cd ∧
          HashValue.compute cd .Sha256 = chs.getD i (HashValue.compute [] .Sha256)) →
      (∃ cd, clookup (hex, start + j) s.chunkFiles = some cd ∧
          HashValue.compute cd .Sha256 ≠ chs.getD j (HashValue.compute [] .Sha256)) →
      readChunksLoop s hex (List.enumFrom start chs)
        = .error (.integrityFailure (start + j)) := by
  intro chs
  induction chs with
  | nil => intro start j hj _ _; simp at hj
  | cons ch rest ih =>
      intro start j hj hpre hbad
      cases j with
      | zero =>
          obtain ⟨cd, hcd, hne⟩ := hbad
          have hcd' : clookup (hex, start) s.chunkFiles = some cd := by simpa using hcd
          have hne' : HashValue.compute cd .Sha256 ≠ ch := by simpa using hne
          show readChunksLoop s hex ((start, ch) :: List.enumFrom (start + 1) rest) = _
          rw [readChunksLoop, hcd']
          show (if HashValue.compute cd .Sha256 = ch
              then Except.map (fun tail => cd ++ tail)
                (readChunksLoop s hex (List.enumFrom (start + 1) rest))
              else Except.error (.integrityFailure start))
            = Except.error (.integrityFailure (start + 0))
          rw [if_neg hne']
          rfl
      | succ j' =>
          obtain ⟨cd0, hcd0, heq0⟩ := hpre 0 (by omega)
          have hcd0' : clookup (hex, start) s.chunkFiles = some cd0 := by simpa using hcd0
          have heq0' : HashValue.compute cd0 .Sha256 = ch := by simpa using heq0
          show readChunksLoop s hex ((start, ch) :: List.enumFrom (start + 1) rest) = _
          rw [readChunksLoop, hcd0']
          show (if HashValue.compute cd0 .Sha256 = ch
              then Except.map (fun tail => cd0 ++ tail)
                (readChunksLoop s hex (List.enumFrom (start + 1) rest))
              else Except.error (.integrityFailure start))
            = Except.error (.integrityFailure (start + (j' + 1)))
          rw [if_pos heq0']
          have hrec := ih (start + 1) j'
            (by simp only [List.length_cons] at hj; omega)
            (by
              intro i hi
              obtain ⟨cd, h1, h2⟩ := hpre (i + 1) (by omega)
              exact ⟨cd,
                by rw [show (start + 1) + i = start + (i + 1) from by omega]; exact h1,
                by simpa using h2⟩)
            (by
              obtain ⟨cd, h1, h2⟩ := hbad
              exact ⟨cd,
                by rw [show (start + 1) + j' = start + (j' + 1) from by omega]; exact h1,
                by simpa using h2⟩)
          rw [hrec, show (start + 1) + j' = start + (j' + 1) from by omega]
          rfl

/-- C4: error taxonomy of `retrieve_file`.  An unknown hash fails with
the not-found error.  A known hash whose first damaged chunk sits at
index `j` (all earlier chunks read back with matching digests, the blob
at `j` reads back with a digest that disagrees with the recorded one)
fails with the integrity error for chunk `j`, which is distinct from
not-found; the call returns an error and no (partial) data. -/
theorem retrieve_error_taxonomy (s : StorageEngine) (h : HashValue) :
    (alookup h.bytes s.hash_to_metadata = none →
      s.retrieve_file h = .error .notFound) ∧
    (∀ md j, alookup h.bytes s.hash_to_metadata = some md →
      j < md.chunks.length →
      (∀ i, i < j → ∃ cd, clookup (h.bytes, i) s.chunkFiles = some cd ∧
          HashValue.compute cd .Sha256 = md.chunks.getD i (HashValue.compute [] .Sha256)) →
      (∃ cd, clookup (h.bytes, j) s.chunkFiles = some cd ∧
          HashValue.compute cd .Sha256 ≠ md.chunks.getD j (HashValue.compute [] .Sha256)) →
      s.retrieve_file h = .error (.integrityFailure j) ∧
        (RetrieveError.integrityFailure j ≠ RetrieveError.notFound)) := by
  constructor
  · intro hnone
    rw [StorageEngine.retrieve_file]
    simp only [hnone]
  · intro md j hmd hj hpre hbad
    refine ⟨?_, by intro hcontra; cases hcontra⟩
    rw [StorageEngine.retrieve_file]
    simp only [hmd]
    have herr := readChunksLoop_err s h.bytes md.chunks 0 j hj
      (by intro i hi; simpa using hpre i hi)
      (by simpa using hbad)
    simpa using herr

/-- An engine state whose metadata records the digest of chunk `[1]` but
whose on-disk blob for chunk 0 holds the tampered bytes `[2]`. -/
def tamperedEngine : StorageEngine :=
  { (StorageEngine.empty.store_file [1] "f" "alice").2 with
    chunkFiles := [(((HashValue.compute [1] .Sha256).bytes, 0), [2])] }

/-- Witness for C4: on the tampered engine, retrieving an unknown hash
fails with not-found, and retrieving the stored file whose chunk 0 was
tampered fails with the integrity error for chunk 0. -/
theorem retrieve_error_taxonomy_witness :
    (alookup (HashValue.compute [9] .Sha256).bytes tamperedEngine.hash_to_metadata = none ∧
     tamperedEngine.retrieve_file (HashValue.compute [9] .Sha256) = .error .notFound) ∧
    (tamperedEngine.retrieve_file (HashValue.compute [1] .Sha256)
        = .error (.integrityFailure 0) ∧
     RetrieveError.integrityFailure 0 ≠ RetrieveError.notFound) :=
  ⟨⟨rfl, (retrieve_error_taxonomy tamperedEngine (HashValue.compute [9] .Sha256)).1 rfl⟩,
   (retrieve_error_taxonomy tamperedEngine (HashValue.compute [1] .Sha256)).2
     (StorageEngine.empty.store_file [1] "f" "alice").1 0 rfl (by decide)
     (fun i hi => absurd hi (by omega))
     ⟨[2], rfl, by decide⟩⟩

theorem clookup_unrelated (hexNew hex' : List Nat) (hne : hex' ≠ hexNew) :
    ∀ (cds : List (List Nat)) (start : Nat) (old : List ((List Nat × Nat) × List Nat)) (j : Nat),
      clookup (hex', j) (((List.enumFrom start cds).map fun p => ((hexNew, p.1), p.2)) ++ old)
        = clookup (hex', j) old := by
  intro cds
  induction cds with
  | nil => intro start old j; rfl
  | cons c rest ih =>
      intro start old j
      have hexp : ((List.enumFrom start (c :: rest)).map fun p => ((hexNew, p.1), p.2)) ++ old
          = ((hexNew, start), c) ::
              (((List.enumFrom (start + 1) rest).map fun p => ((hexNew, p.1), p.2)) ++ old) := rfl
      rw [hexp, clookup]
      rw [if_neg (by
        intro hcontra
        exact hne (congrArg Prod.fst hcontra).symm)]
      exact ih (start + 1) old j

/-- Storing any payload from a well-formed engine state yields a
well-formed state again: the round-trip invariant of C1 is maintained by
the engine's own mutation. -/
theorem store_preserves_WF (s : StorageEngine) (data : List Nat) (filename owner : String)
    (hwf : EngineWF s) : EngineWF (s.store_file data filename owner).2 := by
  cases hlk : alookup (HashValue.compute data .Sha256).bytes s.hash_to_metadata with
  | some existing =>
      intro hex md hmd
      have hmd' : alookup hex s.hash_to_metadata = some md := by
        have hstate : (s.store_file data filename owner).2.hash_to_metadata
            = s.hash_to_metadata := by
          simp [StorageEngine.store_file, hlk]
        rwa [hstate] at hmd
      obtain ⟨D, h1, h2, h3, h4⟩ := hwf hex md hmd'
      refine ⟨D, h1, h2, h3, ?_⟩
      intro j hj
      have hfiles : (s.store_file data filename owner).2.chunkFiles = s.chunkFiles := by
        simp [StorageEngine.store_file, hlk]
      rw [hfiles]
      exact h4 j hj
  | none =>
      intro hex md hmd
      have hstate : (s.store_file data filename owner).2.hash_to_metadata
          = ((HashValue.compute data .Sha256).bytes,
             (s.store_file data filename owner).1) :: s.hash_to_metadata := by
        simp [StorageEngine.store_file, hlk]
      have hfiles : (s.store_file data filename owner).2.chunkFiles
          = (((chunkList data).enum.map
               fun p => (((HashValue.compute data .Sha256).bytes, p.1), p.2)))
              ++ s.chunkFiles := by
        simp [StorageEngine.store_file, hlk]
      rw [hstate, alookup] at hmd
      by_cases hkey : (HashValue.compute data .Sha256).bytes = hex
      · rw [if_pos hkey] at hmd
        refine ⟨data, ?_, hkey, ?_, ?_⟩
        · rw [← Option.some_inj.mp hmd]
          simp [StorageEngine.store_file, hlk]
        · rw [← Option.some_inj.mp hmd]
          simp [StorageEngine.store_file, hlk]
        · intro j hj
          rw [hfiles, ← hkey]
          simpa using clookup_fresh (HashValue.compute data .Sha256).bytes
            (chunkList data) 0 j s.chunkFiles hj
      · rw [if_neg hkey] at hmd
        obtain ⟨D, h1, h2, h3, h4⟩ := hwf hex md hmd
        refine ⟨D, h1, h2, h3, ?_⟩
        intro j hj
        rw [hfiles]
        have hne : hex ≠ (HashValue.compute data .Sha256).bytes := fun hc => hkey hc.symm
        rw [show ((chunkList data).enum.map
              fun p => (((HashValue.compute data .Sha256).bytes, p.1), p.2))
            = ((List.enumFrom 0 (chunkList data)).map
              fun p => (((HashValue.compute data .Sha256).bytes, p.1), p.2)) from rfl]
        rw [clookup_unrelated (HashValue.compute data .Sha256).bytes hex hne
          (chunkList data) 0 s.chunkFiles j]
        exact h4 j hj
